import Mathlib

/-!
Verification of the image-set loading pipeline of `ImageSet.cpp`:
filename grammar, frame table checking, loader, distance-field generator
and sprite handoff.

Modelling conventions:
* C++ `std::string` values are embedded as `List Char`.
* `size_t` arithmetic is carried out modulo `2 ^ 64`, exactly as in C++.
* Reading `path[i]` on a `std::string` is defined for `i ≤ path.length()`
  (at `i = length` it yields the null character); any larger index is an
  undefined out-of-bounds read, modelled by `none`.
* Geometry (`Point`) uses exact rational arithmetic in place of `double`,
  and the final stored distances live in `EReal` so that the `float`
  infinities used by the code are representable.
-/

namespace ImageSetProof

/-- `2 ^ 64`, the modulus of `size_t` arithmetic. -/
def usize : Nat := 2 ^ 64

/-- Read `path[i]` of a C++ `std::string`: in bounds it is the stored
character, at `i = length` it is the null character, and past that the
read is undefined (`none`). -/
def getC (path : List Char) (i : Nat) : Option Char :=
  if h : i < path.length then some (path.get ⟨i, h⟩)
  else if i = path.length then some (Char.ofNat 0)
  else none

/-- `IsBlend` from `ImageSet.cpp`: the four blending-mode marker characters. -/
def isBlend (c : Char) : Bool :=
  c = '-' || c = '~' || c = '+' || c = '='

/-- The digit test written inline in `NameEnd` and `FrameIndex`:
`path[i] >= '0' && path[i] <= '9'`. -/
def isDigitC (c : Char) : Bool :=
  '0' ≤ c && c ≤ '9'

/-- `ImageSet::Is2x`: at least 7 characters, with `"@2x"` right before the
four-character extension. -/
def is2x (path : List Char) : Bool :=
  if path.length < 7 then false
  else
    getC path (path.length - 7) == some '@' &&
    getC path (path.length - 6) == some '2' &&
    getC path (path.length - 5) == some 'x'

/-- `ImageSet::IsImage`: the last four characters form a recognised image
extension. -/
def isImage (path : List Char) : Bool :=
  if path.length < 4 then false
  else
    let ext := path.drop (path.length - 4)
    ext == ".png".toList || ext == ".jpg".toList ||
      ext == ".PNG".toList || ext == ".JPG".toList

/-- `ImageSet::IsDeferred`: paths under `"land/"`. -/
def isDeferred (path : List Char) : Bool :=
  decide (5 ≤ path.length) && path.take 5 == "land/".toList

/-- `ImageSet::IsMasked`: paths under `"ship/"` or `"asteroid/"`. -/
def isMasked (path : List Char) : Bool :=
  (decide (5 ≤ path.length) && path.take 5 == "ship/".toList) ||
    (decide (9 ≤ path.length) && path.take 9 == "asteroid/".toList)

/-- The index where the name-plus-frame region of a well-formed path
ends: `length - 7` for an `@2x` path, else `length - 4` (the value of
`end` in `NameEnd` when the `size_t` subtraction does not underflow). -/
def nameCut (path : List Char) : Nat :=
  path.length - (if is2x path then 7 else 4)

/-- The backward digit scan of `NameEnd`,
`while(--pos) if(path[pos] < '0' || path[pos] > '9') break;`,
given the value of `pos` before the next `--pos`; it returns the value of
`pos` after the loop, or `none` if an undefined read occurs.  (The input
`0` would wrap `pos` around to `2 ^ 64 - 1` and read far out of bounds,
hence `none`; `NameEnd` never calls the loop with `0`.) -/
def scanLoop (path : List Char) : Nat → Option Nat
  | 0 => none
  | 1 => some 0
  | p + 2 =>
    match getC path (p + 1) with
    | none => none
    | some c => if isDigitC c then scanLoop path (p + 1) else some (p + 1)

/-- `NameEnd` from `ImageSet.cpp`.  The `size_t` expression
`path.length() - (Is2x(path) ? 7 : 4)` is computed modulo `2 ^ 64`
(underflow included); `none` records an undefined out-of-bounds read. -/
def nameEnd (path : List Char) : Option Nat :=
  let e := (path.length + (usize - (if is2x path then 7 else 4))) % usize
  if e = 0 then some 0
  else
    match scanLoop path e with
    | none => none
    | some pos =>
      match getC path pos with
      | none => none
      | some c => some (if isBlend c then pos else e)

/-- `ImageSet::Name`: `path.substr(0, NameEnd(path))`. -/
def baseName (path : List Char) : Option (List Char) :=
  (nameEnd path).map fun e => path.take e

/-- The digit-parsing loop of `ImageSet::FrameIndex`:
`for(++i; path[i] >= '0' && path[i] <= '9'; ++i)
   frame = (frame * 10) + (path[i] - '0');`
The first argument is fuel for structural termination; `FrameIndex`
supplies `path.length + 1`, which always suffices to reach a non-digit
(at the latest the null terminator at index `length`), so the exhausted
case is never taken from in-bounds starts. -/
def parseLoop (path : List Char) : Nat → Nat → Nat → Option Nat
  | 0, _, _ => none
  | fuel + 1, i, frame =>
    match getC path i with
    | none => none
    | some c =>
      if isDigitC c then parseLoop path fuel (i + 1) (frame * 10 + (c.toNat - 48))
      else some frame

/-- `ImageSet::FrameIndex`. -/
def frameIndex (path : List Char) : Option Nat :=
  match nameEnd path with
  | none => none
  | some i =>
    match getC path i with
    | none => none
    | some c =>
      if isBlend c then parseLoop path (path.length + 1) (i + 1) 0 else some 0

/-! ### Decomposition of an accepted path

Helper notions used to state the round-trip property: the digit run of a
frame suffix, its numeric value, and the decimal rendering of a frame
index. -/

/-- The numeric value of a digit character: `c - '0'`. -/
def digitVal (c : Char) : Nat := c.toNat - 48

/-- Base-10 value of a most-significant-first digit run, accumulated the
way the `FrameIndex` loop does. -/
def valOf (r : List Char) : Nat :=
  r.foldl (fun a c => a * 10 + digitVal c) 0

/-- The decimal digit characters of `n`, most significant first. -/
def decimalDigits (n : Nat) : List Char :=
  if n = 0 then ['0']
  else (Nat.digits 10 n).reverse.map fun d => Char.ofNat (48 + d)

/-- The run of digit characters following the name boundary (empty when
the parse reached an undefined read or there is no digit run). -/
def frameRun (path : List Char) : List Char :=
  match nameEnd path with
  | some e => (path.drop (e + 1)).takeWhile fun c => isDigitC c
  | none => []

/-- Whether `FrameIndex` takes the blend branch, i.e. a frame suffix was
parsed: the character at `NameEnd(path)` is a blending-mode marker. -/
def hasFrameSuffix (path : List Char) : Bool :=
  match nameEnd path with
  | some e =>
    match getC path e with
    | some c => isBlend c
    | none => false
  | none => false

/-- A digit run is in canonical decimal form: nonempty, and with a leading
zero only as the single digit `"0"`. -/
def canonicalRun (r : List Char) : Prop :=
  r ≠ [] ∧ (r.head? = some '0' → r = ['0'])

instance (r : List Char) : Decidable (canonicalRun r) := by
  unfold canonicalRun; infer_instance

/-- Reassemble a path from its parsed parts: base name, then — when a
frame suffix was parsed — the blend marker followed by the decimal digits
of the frame index, then the `"@2x"` marker when present, then the
four-character extension. -/
def reconstruct (path : List Char) : Option (List Char) :=
  (nameEnd path).bind fun e =>
    (getC path e).bind fun c =>
      (if isBlend c then (frameIndex path).map fun f => c :: decimalDigits f
       else some []).map fun mid =>
        path.take e ++ mid ++ (if is2x path then "@2x".toList else []) ++
          path.drop (path.length - 4)

/-! ### Geometry: the `GenerateDistances` inner loop

`Point` is embedded as a pair of rationals; `Dot`, `LengthSquared` and the
vector operations are the standard ones supplied by the geometry
collaborator.  `float` division by zero in the projection parameter is
unreachable under the stated outline precondition (see the claim about
`segment.LengthSquared()` being nonzero); Lean's `q / 0 = 0` convention is
never relied on below. -/

/-- A 2D point with exact rational coordinates (`Point`). -/
abbrev Pt : Type := ℚ × ℚ

/-- `Point::Dot`. -/
def dot (a b : Pt) : ℚ := a.1 * b.1 + a.2 * b.2

/-- Vector subtraction `a - b` on `Point`. -/
def sub (a b : Pt) : Pt := (a.1 - b.1, a.2 - b.2)

/-- Scalar multiplication `t * a` on `Point`. -/
def smul (t : ℚ) (a : Pt) : Pt := (t * a.1, t * a.2)

/-- `Point::LengthSquared`. -/
def lengthSquared (a : Pt) : ℚ := dot a a

/-- `min` against a `float` accumulator that may be `+infinity` (`none`):
the update `if(closestSquared > distSquared) closestSquared = distSquared`. -/
def minO : Option ℚ → ℚ → Option ℚ
  | none, d => some d
  | some a, d => some (min a d)

/-- One iteration of the segment loop of `GenerateDistances`, acting on the
state `(prev, closestSquared)`; `closestSquared = none` is `+infinity`. -/
def segStep (p : Pt) (st : Pt × Option ℚ) (cur : Pt) : Pt × Option ℚ :=
  let prev := st.1
  let segment := sub cur prev
  let dist := sub p prev
  let t := dot dist segment / lengthSquared segment
  if t < 1 then
    let d := if 0 < t then sub dist (smul t segment) else dist
    (cur, minO st.2 (lengthSquared d))
  else (cur, st.2)

/-- The inner segment loop of `GenerateDistances` for one query point `p`:
`closestSquared` starts at `+infinity` and `prev` starts at
`mask.Outline().back()`. -/
def innerLoop (outline : List Pt) (p : Pt) : Option ℚ :=
  (outline.foldl (segStep p) (outline.getLast?.getD (0, 0), none)).2

/-- The segments of the closed polyline, as `(prev, cur)` pairs in the
order the loop visits them: `(last, o₀), (o₀, o₁), …, (o_{n-2}, o_{n-1})`. -/
def segments (outline : List Pt) : List (Pt × Pt) :=
  List.zip (outline.getLast?.getD (0, 0) :: outline) outline

/-- No two consecutive outline points, wrapping last to first, coincide. -/
def consecDistinct (outline : List Pt) : Prop :=
  ∀ s ∈ segments outline, s.1 ≠ s.2

instance (outline : List Pt) : Decidable (consecDistinct outline) := by
  unfold consecDistinct; infer_instance

/-- The projection parameter `t = (p - prev)·(cur - prev) / |cur - prev|²`
computed by the loop. -/
def projT (p a b : Pt) : ℚ :=
  dot (sub p a) (sub b a) / lengthSquared (sub b a)

/-- The candidate squared distance one loop iteration contributes, exactly
as the code computes it; `none` when the iteration is skipped (`t ≥ 1`). -/
def codeContrib (p : Pt) (s : Pt × Pt) : Option ℚ :=
  if projT p s.1 s.2 < 1 then
    some (lengthSquared
      (if 0 < projT p s.1 s.2 then
        sub (sub p s.1) (smul (projT p s.1 s.2) (sub s.2 s.1))
      else sub p s.1))
  else none

/-- The true squared Euclidean distance from `p` to the segment from `s.1`
to `s.2`: the clamped-projection formula, proved below to be the minimum
of `|p - q|²` over all points `q` of the segment. -/
def segDistSq (p : Pt) (s : Pt × Pt) : ℚ :=
  if projT p s.1 s.2 ≤ 0 then lengthSquared (sub p s.1)
  else if 1 ≤ projT p s.1 s.2 then lengthSquared (sub p s.2)
  else lengthSquared (sub (sub p s.1) (smul (projT p s.1 s.2) (sub s.2 s.1)))

/-- The point of segment `s` at parameter `u ∈ [0, 1]`. -/
def onSeg (s : Pt × Pt) (u : ℚ) : Pt :=
  (s.1.1 + u * (s.2.1 - s.1.1), s.1.2 + u * (s.2.2 - s.1.2))

/-- The true minimum squared distance from `p` to the closed polyline
through the outline's points (minimum of the per-segment true distances;
`none` only for an empty outline). -/
def trueDistSq (outline : List Pt) (p : Pt) : Option ℚ :=
  (segments outline).foldl (fun a s => minO a (segDistSq p s)) none

/-- Interpret a `float` accumulator (`none` = `+infinity`) in the ordered
type `WithTop ℚ`, for reasoning about the loop's minimum. -/
def toW : Option ℚ → WithTop ℚ
  | none => ⊤
  | some q => (q : WithTop ℚ)

/-- Minimum of `f` over a list, starting from `⊤`. -/
def wMin {β : Type} (f : β → WithTop ℚ) (l : List β) : WithTop ℚ :=
  l.foldl (fun a s => min a (f s)) ⊤

/-! ### The distance field

`GenerateDistances` is embedded parametrically in the value type `V` of
the output array: `vinf` is the `float` `+infinity` used by
`distances.assign(...)`, and `vout sign closestSquared` is the stored
write-back `copysign(sqrt(closestSquared), sign) * normalize` — both are
`<cmath>`/float externals; the claims instantiate `vout` with the exact
real-number formula.  `inside m p` is the external point-in-polygon test
`mask.Contains(p, Angle())`, keyed by the mask's outline. -/

/-- The query point `Point(x - center.X(), y - center.Y())` for the
half-resolution pixel `(x, y)`, with `center = (.5 * width, .5 * height)`. -/
def pixelOf (w h : Nat) (x y : Nat) : Pt :=
  ((x : ℚ) - (w : ℚ) / 2, (y : ℚ) - (h : ℚ) / 2)

/-- The `w * h` values `GenerateDistances` leaves in one frame's slot:
an empty outline is skipped (`ptr += width * height`), leaving the
initialization value; otherwise each pixel is written in row order. -/
def frameValues {V : Type} (vinf : V) (vout : Bool → Option ℚ → V)
    (inside : List Pt → Pt → Bool) (w h : Nat) (outline : List Pt) : List V :=
  if outline = [] then List.replicate (w * h) vinf
  else
    (List.range h).flatMap fun y =>
      (List.range w).map fun x =>
        vout (inside outline (pixelOf w h x y)) (innerLoop outline (pixelOf w h x y))

/-- `GenerateDistances`: an empty mask list returns with `distances`
untouched; otherwise the array is assigned `width * height * masks.size()`
infinities and filled frame slot by frame slot. -/
def generateDistances {V : Type} (vinf : V) (vout : Bool → Option ℚ → V)
    (inside : List Pt → Pt → Bool) (W H : Nat)
    (masks : List (List Pt)) (old : List V) : List V :=
  if masks = [] then old
  else masks.flatMap fun m => frameValues vinf vout inside (W / 2) (H / 2) m

/-! ### The frame table check -/

/-- A diagnostic line written to `cerr` by `ImageSet::Check`. -/
inductive Warning : Type where
  | extra (count : Nat)
  | missingFrame (i : Nat)
  | missing2x (i : Nat)
deriving DecidableEq

/-- `ImageSet::Check` (a `const` method: it only reads the path table).
The warnings are listed in emission order. -/
def check (paths0 paths1 : List (List Char)) : List Warning :=
  (if paths0.length < paths1.length then
    [Warning.extra (paths1.length - paths0.length)]
  else []) ++
  (List.range paths0.length).flatMap fun i =>
    (if (paths0.getD i []) = [] then [Warning.missingFrame i] else []) ++
    (if paths1 ≠ [] ∧ (paths1.length ≤ i ∨ (paths1.getD i []) = []) then
      [Warning.missing2x i]
    else [])

/-! ### The loader and the handoff

`ImageBuffer::Read` (the external decoder) is a parameter
`decode : path → frame → Option Pix` over an abstract pixel-buffer type;
`Mask::Create` is a parameter `maskOf : Pix → frame → List Pt` producing
the frame's outline.  The standard-resolution image dimensions `W × H`
are those reported by the decoded buffer, hence parameters as well. -/

/-- The state of an `ImageSet`: the path table for both resolution
variants and the transient products of `Load`.  A freshly constructed
`ImageSet` has empty buffers, masks and distances. -/
structure SetState (Pix V : Type) where
  sname : List Char
  paths0 : List (List Char)
  paths1 : List (List Char)
  buffer0 : List (Option Pix)
  buffer1 : List (Option Pix)
  masks : List (List Pt)
  distances : List V

/-- The events recorded while `Load` runs: which `(path, frame)` pairs
were handed to the decoder for each resolution, and for which frames
`Mask::Create` was invoked. -/
structure LoadTrace : Type where
  reads0 : List Nat
  reads2x : List Nat
  maskCalls : List Nat
deriving DecidableEq

/-- The result of one iteration range of the standard-resolution loop of
`Load`: buffer slots and mask slots from the current index up, plus the
trace of decode attempts and mask-construction calls. -/
structure Loop1Out (Pix : Type) where
  buf : List (Option Pix)
  masks : List (List Pt)
  reads : List Nat
  maskCalls : List Nat

/-- The first loop of `Load`:
`for(i...) if(buffer[0].Read(paths[0][i], i) && makeMasks) masks[i].Create(buffer[0], i);`
`base` holds the mask vector contents right after `masks.resize(frames)`
(slots not overwritten by `Create` keep that content).  The first `Nat`
is fuel for structural termination; `Load` supplies `frames`, which
covers every iteration from `i = 0`. -/
def loadLoop1 {Pix : Type} (decode : List Char → Nat → Option Pix)
    (maskOf : Pix → Nat → List Pt) (paths0 : List (List Char))
    (base : List (List Pt)) (makeMasks : Bool) (frames : Nat) :
    Nat → Nat → Loop1Out Pix
  | 0, _ => ⟨[], [], [], []⟩
  | fuel + 1, i =>
    if i < frames then
      let pix := decode (paths0.getD i []) i
      let rest := loadLoop1 decode maskOf paths0 base makeMasks frames fuel (i + 1)
      { buf := pix :: rest.buf
        masks :=
          (match pix with
            | some px => if makeMasks then maskOf px i else base.getD i []
            | none => base.getD i []) :: rest.masks
        reads := i :: rest.reads
        maskCalls :=
          match pix with
          | some _ => if makeMasks then i :: rest.maskCalls else rest.maskCalls
          | none => rest.maskCalls }
    else ⟨[], [], [], []⟩

/-- The second loop of `Load`:
`for(size_t i = 0; i < frames && i < paths[1].size(); ++i) buffer[1].Read(paths[1][i], i);`
returning the filled buffer slots and the decode trace.  The first `Nat`
is fuel for structural termination; `Load` supplies `frames`. -/
def loadLoop2x {Pix : Type} (decode : List Char → Nat → Option Pix)
    (paths1 : List (List Char)) (frames n1 : Nat) :
    Nat → Nat → List (Option Pix) × List Nat
  | 0, _ => ([], [])
  | fuel + 1, i =>
    if i < frames ∧ i < n1 then
      let rest := loadLoop2x decode paths1 frames n1 fuel (i + 1)
      (decode (paths1.getD i []) i :: rest.1, i :: rest.2)
    else ([], [])

/-- `ImageSet::Load`.  `masks.resize(frames)` keeps existing entries and
fills new slots with default (empty-outline) masks; when the set is not a
masked category the mask vector is left as it was. -/
def load {Pix V : Type} (decode : List Char → Nat → Option Pix)
    (maskOf : Pix → Nat → List Pt) (vinf : V) (vout : Bool → Option ℚ → V)
    (inside : List Pt → Pt → Bool) (W H : Nat) (s : SetState Pix V) :
    SetState Pix V × LoadTrace :=
  let frames := s.paths0.length
  let makeMasks := isMasked s.sname
  let base := s.masks.take frames ++
    List.replicate (frames - s.masks.length) ([] : List Pt)
  let out1 := loadLoop1 decode maskOf s.paths0 base makeMasks frames frames 0
  let newMasks := if makeMasks then out1.masks else s.masks
  let out2 := loadLoop2x decode s.paths1 frames s.paths1.length frames 0
  let buf1 := out2.1 ++
    List.replicate (frames - min frames s.paths1.length) (none : Option Pix)
  ({ s with
      buffer0 := out1.buf
      buffer1 := buf1
      masks := newMasks
      distances := generateDistances vinf vout inside W H newMasks s.distances },
   { reads0 := out1.reads, reads2x := out2.2, maskCalls := out1.maskCalls })

/-- The data handed to the sprite by `ImageSet::Upload`. -/
structure Published (Pix V : Type) where
  frames0 : List (Option Pix)
  frames1 : List (Option Pix)
  pmasks : List (List Pt)
  pdistances : List V

/-- `ImageSet::Upload`.  Modelled from the spec for the sprite side:
`Sprite::AddFrames` and `Sprite::AddMasks` clear the vectors handed to
them (so documented in `Sprite.h`), and the distance-texture transfer
clears the distance vector (spec §4.5: "Publish clears internal
buffers/masks/distance field but leaves the path table intact").  The
sprite receives the data; the name and path table are untouched. -/
def upload {Pix V : Type} (s : SetState Pix V) :
    SetState Pix V × Published Pix V :=
  ({ s with buffer0 := [], buffer1 := [], masks := [], distances := [] },
   { frames0 := s.buffer0, frames1 := s.buffer1,
     pmasks := s.masks, pdistances := s.distances })

/-- One `Load()` + `Upload()` cycle. -/
def cycle {Pix V : Type} (decode : List Char → Nat → Option Pix)
    (maskOf : Pix → Nat → List Pt) (vinf : V) (vout : Bool → Option ℚ → V)
    (inside : List Pt → Pt → Bool) (W H : Nat) (s : SetState Pix V) :
    SetState Pix V × Published Pix V :=
  upload (load decode maskOf vinf vout inside W H s).1

/-! ### Shared example data for the concrete witnesses -/

/-- A small square outline used by concrete witnesses. -/
def exOutline : List Pt := [(0, 0), (4, 0), (4, 4), (0, 4)]

/-- A decoder that succeeds on frame 0 and fails on later frames. -/
def exDecode : List Char → Nat → Option Unit := fun _ i =>
  if i = 0 then some () else none

/-- A mask constructor returning the example outline for every frame. -/
def exMaskOf : Unit → Nat → List Pt := fun _ _ => exOutline

/-- A masked-category image set with two standard frames and no 2x
frames, in freshly constructed state. -/
def exSet : SetState Unit Bool :=
  ⟨"ship/a".toList, ["ship/a.png".toList, "ship/a-1.png".toList],
    [], [], [], [], []⟩

/-! ## Theorems -/

theorem lengthSquared_nonneg (a : Pt) : 0 ≤ lengthSquared a := by
  simp only [lengthSquared, dot]
  nlinarith [sq_nonneg a.1, sq_nonneg a.2]

theorem lengthSquared_sub_eq_zero {a b : Pt} :
    lengthSquared (sub b a) = 0 ↔ a = b := by
  simp only [lengthSquared, dot, sub, Prod.ext_iff]
  constructor
  · intro h
    constructor
    · nlinarith [sq_nonneg (b.1 - a.1), sq_nonneg (b.2 - a.2)]
    · nlinarith [sq_nonneg (b.1 - a.1), sq_nonneg (b.2 - a.2)]
  · rintro ⟨h1, h2⟩
    rw [h1, h2]
    ring

/-- C10: the projection parameter `t = dist.Dot(segment) / segment.LengthSquared()`
is computed with no guard against a zero divisor; for every outline in
which no two consecutive points (including the last-to-first wrap) are
equal, `segment.LengthSquared()` is nonzero at every iteration of the
segment loop, so the division-by-zero case is unreachable under that
precondition. -/
theorem c10_projection_divisor_nonzero (outline : List Pt)
    (h : consecDistinct outline) :
    ∀ s ∈ segments outline, lengthSquared (sub s.2 s.1) ≠ 0 := by
  intro s hs hzero
  exact h s hs (lengthSquared_sub_eq_zero.mp hzero)

theorem c10_projection_divisor_nonzero_witness :
    consecDistinct exOutline ∧
      ∀ s ∈ segments exOutline, lengthSquared (sub s.2 s.1) ≠ 0 :=
  ⟨by decide, c10_projection_divisor_nonzero exOutline (by decide)⟩

/-- C3: on the empty string the four classification predicates return the
conservative `false` without any out-of-bounds access, but `Name` and
`FrameIndex` reach an undefined out-of-bounds read (`none`): the `size_t`
subtraction in `NameEnd` underflows to `2^64 - 4`, the `if(!end)` guard
does not fire, and the backward scan reads `path[2^64 - 5]`.  This
contradicts the claim (and the spec's edge-case requirement) that every
such function returns a conservative result with no out-of-bounds index
for every input, including strings shorter than 4 characters. -/
theorem c3_short_path_oob :
    isImage [] = false ∧ is2x [] = false ∧ isDeferred [] = false ∧
      isMasked [] = false ∧ baseName [] = none ∧ frameIndex [] = none := by
  decide

theorem loadLoop2x_trace {Pix : Type} (decode : List Char → Nat → Option Pix)
    (paths1 : List (List Char)) (frames n1 : Nat) :
    ∀ fuel i, frames ≤ fuel + i →
      (loadLoop2x decode paths1 frames n1 fuel i).2 =
        List.range' i (min frames n1 - i) := by
  intro fuel
  induction fuel with
  | zero =>
    intro i h
    have h0 : min frames n1 - i = 0 := by omega
    simp [loadLoop2x, h0]
  | succ fuel ih =>
    intro i h
    rw [loadLoop2x]
    by_cases hc : i < frames ∧ i < n1
    · rw [if_pos hc]
      have h2 : min frames n1 - i = (min frames n1 - (i + 1)) + 1 := by omega
      simp only [ih (i + 1) (by omega), h2, List.range'_succ]
    · rw [if_neg hc]
      have h0 : min frames n1 - i = 0 := by omega
      simp [h0]

/-- C5: `Load` hands a double-resolution path to the decoder only for
frame indices below `min(standard frame count, double path count)`: the
2x decode trace is exactly `range (min frames doubleCount)`, so every
index read is below the standard frame count and every excess `@2x` path
is never read. -/
theorem c5_no_excess_2x_reads {Pix V : Type}
    (decode : List Char → Nat → Option Pix) (maskOf : Pix → Nat → List Pt)
    (vinf : V) (vout : Bool → Option ℚ → V) (inside : List Pt → Pt → Bool)
    (W H : Nat) (s : SetState Pix V) :
    (load decode maskOf vinf vout inside W H s).2.reads2x =
        List.range (min s.paths0.length s.paths1.length) ∧
      ∀ i ∈ (load decode maskOf vinf vout inside W H s).2.reads2x,
        i < s.paths0.length := by
  have h := loadLoop2x_trace decode s.paths1 s.paths0.length s.paths1.length
    s.paths0.length 0 (by omega)
  have hmain : (load decode maskOf vinf vout inside W H s).2.reads2x =
      List.range (min s.paths0.length s.paths1.length) := by
    simp only [load, h, List.range_eq_range', Nat.sub_zero]
  refine ⟨hmain, ?_⟩
  intro i hi
  rw [hmain, List.mem_range] at hi
  omega

theorem loadLoop1_spec {Pix : Type} (decode : List Char → Nat → Option Pix)
    (maskOf : Pix → Nat → List Pt) (paths0 : List (List Char))
    (base : List (List Pt)) (makeMasks : Bool) (frames : Nat) :
    ∀ fuel i, frames ≤ fuel + i →
      loadLoop1 decode maskOf paths0 base makeMasks frames fuel i =
        { buf := (List.range' i (frames - i)).map fun j =>
            decode (paths0.getD j []) j
          masks := (List.range' i (frames - i)).map fun j =>
            match decode (paths0.getD j []) j with
            | some px => if makeMasks then maskOf px j else base.getD j []
            | none => base.getD j []
          reads := List.range' i (frames - i)
          maskCalls := (List.range' i (frames - i)).filter fun j =>
            makeMasks && (decode (paths0.getD j []) j).isSome } := by
  intro fuel
  induction fuel with
  | zero =>
    intro i h
    have h0 : frames - i = 0 := by omega
    simp [loadLoop1, h0]
  | succ fuel ih =>
    intro i h
    simp only [loadLoop1]
    by_cases hc : i < frames
    · rw [if_pos hc]
      have h2 : frames - i = (frames - (i + 1)) + 1 := by omega
      rw [ih (i + 1) (by omega), h2, List.range'_succ]
      simp only [List.map_cons, List.filter_cons]
      cases hdec : decode (paths0.getD i []) i with
      | none => simp [hdec]
      | some px => by_cases hmm : makeMasks <;> simp [hdec, hmm]
    · rw [if_neg hc]
      have h0 : frames - i = 0 := by omega
      simp [h0]

/-- C7: during `Load`, `Mask::Create` is invoked for frame `i` iff the set
is a masked category and the standard-resolution decode of frame `i`
succeeded; the decoder is invoked for every standard frame regardless of
other frames' failures; a failed frame's buffer slot stays empty and its
mask slot stays the default empty outline; and the distance field is
generated afterwards from the collected masks in all cases. -/
theorem c7_mask_calls_and_partial_failure {Pix V : Type}
    (decode : List Char → Nat → Option Pix) (maskOf : Pix → Nat → List Pt)
    (vinf : V) (vout : Bool → Option ℚ → V) (inside : List Pt → Pt → Bool)
    (W H : Nat) (s : SetState Pix V) (hm : s.masks = []) :
    (load decode maskOf vinf vout inside W H s).2.maskCalls =
        (List.range s.paths0.length).filter (fun i =>
          isMasked s.sname && (decode (s.paths0.getD i []) i).isSome) ∧
      (load decode maskOf vinf vout inside W H s).2.reads0 =
        List.range s.paths0.length ∧
      (∀ i, i < s.paths0.length → decode (s.paths0.getD i []) i = none →
        (load decode maskOf vinf vout inside W H s).1.buffer0[i]? =
            some none ∧
          (isMasked s.sname = true →
            (load decode maskOf vinf vout inside W H s).1.masks[i]? =
              some [])) ∧
      (load decode maskOf vinf vout inside W H s).1.distances =
        generateDistances vinf vout inside W H
          (load decode maskOf vinf vout inside W H s).1.masks s.distances := by
  have hspec := loadLoop1_spec decode maskOf s.paths0
    (s.masks.take s.paths0.length ++
      List.replicate (s.paths0.length - s.masks.length) ([] : List Pt))
    (isMasked s.sname) s.paths0.length s.paths0.length 0 (by omega)
  refine ⟨?_, ?_, ?_, ?_⟩
  · simp only [load, hspec, List.range_eq_range', Nat.sub_zero]
  · simp only [load, hspec, List.range_eq_range', Nat.sub_zero]
  · intro i hi hdec
    have hbase : (s.masks.take s.paths0.length ++
        List.replicate (s.paths0.length - s.masks.length)
          ([] : List Pt)).getD i [] = [] := by
      rw [hm]
      simp only [List.take_nil, List.nil_append, Nat.sub_zero,
        List.length_nil, List.getD_eq_getElem?_getD, List.getElem?_replicate,
        if_pos hi]
      rfl
    have hdec' : decode (s.paths0[i]?.getD []) i = none := by
      rw [← List.getD_eq_getElem?_getD]
      exact hdec
    have hbase' : (s.masks.take s.paths0.length ++
        List.replicate (s.paths0.length - s.masks.length)
          ([] : List Pt))[i]?.getD [] = [] := by
      rw [← List.getD_eq_getElem?_getD]
      exact hbase
    constructor
    · simp only [load, hspec, List.getElem?_map, Nat.sub_zero,
        List.getElem?_range' _ _ hi, Nat.zero_add, Nat.one_mul]
      simp [hdec']
    · intro hmask
      rw [hmask] at hspec
      simp only [load, hmask, if_true, hspec, List.getElem?_map,
        Nat.sub_zero, List.getElem?_range' _ _ hi, Nat.zero_add,
        Nat.one_mul]
      simp [hdec', hbase']
  · simp only [load]

theorem c7_mask_calls_witness :
    exSet.masks = [] ∧ 1 < exSet.paths0.length ∧
      exDecode (exSet.paths0.getD 1 []) 1 = none ∧
      (load exDecode exMaskOf false (fun _ _ => false) (fun _ _ => false)
          4 4 exSet).1.buffer0[1]? = some none ∧
      (load exDecode exMaskOf false (fun _ _ => false) (fun _ _ => false)
          4 4 exSet).1.masks[1]? = some [] := by
  have h := c7_mask_calls_and_partial_failure exDecode exMaskOf false
    (fun _ _ => false) (fun _ _ => false) 4 4 exSet rfl
  exact ⟨rfl, by decide, by decide,
    (h.2.2.1 1 (by decide) (by decide)).1,
    (h.2.2.1 1 (by decide) (by decide)).2 (by decide)⟩

theorem frameValues_length {V : Type} (vinf : V)
    (vout : Bool → Option ℚ → V) (inside : List Pt → Pt → Bool)
    (w h : Nat) (outline : List Pt) :
    (frameValues vinf vout inside w h outline).length = w * h := by
  unfold frameValues
  split
  · simp
  · rw [List.length_flatMap]
    have : ∀ y ∈ List.range h,
        ((List.length ∘ fun y => (List.range w).map fun x =>
          vout (inside outline (pixelOf w h x y))
            (innerLoop outline (pixelOf w h x y))) y) = w := by
      intro y _
      simp
    rw [List.map_congr_left this, List.map_const', List.sum_const_nat,
      List.length_range, Nat.mul_comm]

theorem generateDistances_length {V : Type} (vinf : V)
    (vout : Bool → Option ℚ → V) (inside : List Pt → Pt → Bool)
    (W H : Nat) (masks : List (List Pt)) (old : List V)
    (hne : masks ≠ []) :
    (generateDistances vinf vout inside W H masks old).length =
      masks.length * ((W / 2) * (H / 2)) := by
  unfold generateDistances
  rw [if_neg hne, List.length_flatMap]
  have : ∀ m ∈ masks,
      ((List.length ∘ fun m =>
        frameValues vinf vout inside (W / 2) (H / 2) m) m) =
        (W / 2) * (H / 2) := by
    intro m _
    simp [frameValues_length]
  rw [List.map_congr_left this, List.map_const', List.sum_const_nat]

/-- C4 (amended): after `Load`, for an image set of a masked category the
distance-field array has length `(W/2) * (H/2) * frameCount`; for a
non-masked set `GenerateDistances` returns immediately (the mask list is
empty) and the distance field stays empty.  The hypotheses state the
freshly-constructed (or post-`Upload`) entry state of the mask and
distance vectors. -/
theorem c4_distance_field_length {Pix V : Type}
    (decode : List Char → Nat → Option Pix) (maskOf : Pix → Nat → List Pt)
    (vinf : V) (vout : Bool → Option ℚ → V) (inside : List Pt → Pt → Bool)
    (W H : Nat) (s : SetState Pix V) (hm : s.masks = [])
    (hd : s.distances = []) :
    (load decode maskOf vinf vout inside W H s).1.distances.length =
      if isMasked s.sname then (W / 2) * (H / 2) * s.paths0.length
      else 0 := by
  have hspec := loadLoop1_spec decode maskOf s.paths0
    (s.masks.take s.paths0.length ++
      List.replicate (s.paths0.length - s.masks.length) ([] : List Pt))
    (isMasked s.sname) s.paths0.length s.paths0.length 0 (by omega)
  cases hmask : isMasked s.sname with
  | true =>
    rw [hmask] at hspec
    rw [if_pos rfl]
    by_cases hf : s.paths0.length = 0
    · simp only [load, hf]
      simp [loadLoop1, generateDistances, hd, hm, hmask]
    · simp only [load, hmask, if_true, hspec]
      rw [generateDistances_length vinf vout inside W H _ s.distances ?hne]
      case hne =>
        intro hcon
        apply hf
        have hlen := congrArg List.length hcon
        rwa [List.length_map, List.length_range', List.length_nil,
          Nat.sub_zero] at hlen
      simp [Nat.mul_comm]
  | false =>
    simp only [load, hmask, Bool.false_eq_true, if_false, hm]
    simp [generateDistances, hd]

/-- C4 counterexample: a non-masked image set (`"effect/x"`) with one
standard frame and a 2×2 image: after `Load` the distance field is empty,
not of length `(W/2) * (H/2) * frameCount = 1` as the claim requires for
every image set "whether or not it belongs to a masked category". -/
theorem c4_distance_field_length_counterexample :
    ¬((load (fun _ _ => (some () : Option Unit)) (fun _ _ => ([] : List Pt))
        false (fun _ _ => false) (fun _ _ => false) 2 2
        ⟨"effect/x".toList, ["effect/x.png".toList], [], [], [], [], []⟩
      ).1.distances.length = (2 / 2) * (2 / 2) * 1) := by
  decide

theorem c4_distance_field_length_witness :
    exSet.masks = [] ∧ exSet.distances = [] ∧
      (load exDecode exMaskOf false (fun _ _ => false) (fun _ _ => false)
          4 4 exSet).1.distances.length =
        if isMasked exSet.sname then (4 / 2) * (4 / 2) * exSet.paths0.length
        else 0 :=
  ⟨rfl, rfl, c4_distance_field_length exDecode exMaskOf false
    (fun _ _ => false) (fun _ _ => false) 4 4 exSet rfl rfl⟩

theorem flatMap_getElem?_uniform {α β : Type} (f : α → List β) (c : Nat) :
    ∀ (l : List α) (k j : Nat) (a : α), (∀ x ∈ l, (f x).length = c) →
      l[k]? = some a → j < c → (l.flatMap f)[k * c + j]? = (f a)[j]? := by
  intro l
  induction l with
  | nil =>
    intro k j a _ hk
    simp at hk
  | cons x t ih =>
    intro k j a hlen hk hj
    rw [List.flatMap_cons]
    cases k with
    | zero =>
      have hx : x = a := by simpa using hk
      rw [Nat.zero_mul, Nat.zero_add,
        List.getElem?_append_left (by rw [hlen x (by simp)]; exact hj), hx]
    | succ k =>
      have hk' : t[k]? = some a := by simpa using hk
      have hidx : (k + 1) * c + j = (f x).length + (k * c + j) := by
        rw [hlen x (by simp)]
        ring
      rw [hidx, List.getElem?_append_right (by omega)]
      have : (f x).length + (k * c + j) - (f x).length = k * c + j := by omega
      rw [this]
      exact ih k j a (fun y hy => hlen y (by simp [hy])) hk' hj

/-- C6: in the distance field produced by `GenerateDistances`, every entry
of an empty-outline frame's slot equals the `+infinity` initialization
value (the slot is skipped, never computed), and the frame still occupies
its slot: every frame `k'`'s values sit at offsets
`k' * (W/2) * (H/2) + j`, exactly as if every frame had been computed. -/
theorem c6_empty_outline_slots {V : Type} (vinf : V)
    (vout : Bool → Option ℚ → V) (inside : List Pt → Pt → Bool)
    (W H : Nat) (masks : List (List Pt)) (old : List V) (k j : Nat)
    (hk : masks[k]? = some []) (hj : j < (W / 2) * (H / 2)) :
    (generateDistances vinf vout inside W H masks old)[k * ((W / 2) * (H / 2)) + j]? =
        some vinf ∧
      ∀ k' m j', masks[k']? = some m → j' < (W / 2) * (H / 2) →
        (generateDistances vinf vout inside W H masks
            old)[k' * ((W / 2) * (H / 2)) + j']? =
          (frameValues vinf vout inside (W / 2) (H / 2) m)[j']? := by
  have hne : masks ≠ [] := by
    intro hcon
    rw [hcon] at hk
    simp at hk
  have hslot : ∀ k' m j', masks[k']? = some m → j' < (W / 2) * (H / 2) →
      (generateDistances vinf vout inside W H masks
          old)[k' * ((W / 2) * (H / 2)) + j']? =
        (frameValues vinf vout inside (W / 2) (H / 2) m)[j']? := by
    intro k' m j' hk' hj'
    unfold generateDistances
    rw [if_neg hne]
    exact flatMap_getElem?_uniform _ ((W / 2) * (H / 2)) masks k' j' m
      (fun x _ => frameValues_length vinf vout inside (W / 2) (H / 2) x)
      hk' hj'
  refine ⟨?_, hslot⟩
  rw [hslot k [] j hk hj]
  unfold frameValues
  rw [if_pos rfl, List.getElem?_replicate, if_pos hj]

theorem c6_empty_outline_slots_witness :
    ([[], exOutline] : List (List Pt))[0]? = some [] ∧
      (0 : Nat) < (4 / 2) * (4 / 2) ∧
      (generateDistances true (fun _ _ => false) (fun _ _ => false) 4 4
          [[], exOutline] [])[0 * ((4 / 2) * (4 / 2)) + 0]? = some true :=
  ⟨rfl, by decide,
    (c6_empty_outline_slots true (fun _ _ => false) (fun _ _ => false) 4 4
      [[], exOutline] [] 0 0 rfl (by decide)).1⟩

/-- C8: `Check` emits the excess-@2x warning iff the @2x path list is
strictly longer than the standard one, with the difference as the count;
it emits a missing-frame warning exactly for the standard indices whose
slot is empty; and, only when the @2x list is nonempty, a missing-@2x
warning exactly for the standard indices whose @2x slot is absent or
empty.  On standard frames {0,1,2} and double frames {0,1,2,3}, all
populated, it emits exactly one warning: the excess warning with count 1.
(`Check` is a `const` method; the embedding takes the path table and
returns only the warning list.) -/
theorem c8_check_warnings (p0 p1 : List (List Char)) :
    (∀ c, Warning.extra c ∈ check p0 p1 ↔
        p0.length < p1.length ∧ c = p1.length - p0.length) ∧
      (∀ i, Warning.missingFrame i ∈ check p0 p1 ↔
        i < p0.length ∧ p0.getD i [] = []) ∧
      (∀ i, Warning.missing2x i ∈ check p0 p1 ↔
        i < p0.length ∧ p1 ≠ [] ∧ (p1.length ≤ i ∨ p1.getD i [] = [])) ∧
      check (List.replicate 3 ['a']) (List.replicate 4 ['b']) =
        [Warning.extra 1] := by
  refine ⟨?_, ?_, ?_, by decide⟩
  · intro c
    simp [check]
  · intro i
    simp [check]
  · intro i
    simp [check]

/-- C9: `Upload` hands the buffers, masks and distance field to the
sprite and clears them, but never modifies the name or the stored path
lists; consequently, starting from the freshly-constructed state of the
mask and distance vectors, `Load()` + `Upload()` twice in succession
reads the same paths both times and the second cycle produces exactly the
same state and published data as the first. -/
theorem c9_upload_preserves_paths_and_cycle {Pix V : Type}
    (decode : List Char → Nat → Option Pix) (maskOf : Pix → Nat → List Pt)
    (vinf : V) (vout : Bool → Option ℚ → V) (inside : List Pt → Pt → Bool)
    (W H : Nat) (s : SetState Pix V) (hm : s.masks = [])
    (hd : s.distances = []) :
    (upload s).1.sname = s.sname ∧ (upload s).1.paths0 = s.paths0 ∧
      (upload s).1.paths1 = s.paths1 ∧ (upload s).1.buffer0 = [] ∧
      (upload s).1.buffer1 = [] ∧ (upload s).1.masks = [] ∧
      (upload s).1.distances = [] ∧
      (upload s).2 = ⟨s.buffer0, s.buffer1, s.masks, s.distances⟩ ∧
      cycle decode maskOf vinf vout inside W H
          (cycle decode maskOf vinf vout inside W H s).1 =
        cycle decode maskOf vinf vout inside W H s := by
  refine ⟨rfl, rfl, rfl, rfl, rfl, rfl, rfl, rfl, ?_⟩
  simp only [cycle, upload, load, hm, hd]

theorem c9_upload_preserves_paths_and_cycle_witness :
    exSet.masks = [] ∧ exSet.distances = [] ∧
      cycle exDecode exMaskOf false (fun _ _ => false) (fun _ _ => false)
          4 4
          (cycle exDecode exMaskOf false (fun _ _ => false)
            (fun _ _ => false) 4 4 exSet).1 =
        cycle exDecode exMaskOf false (fun _ _ => false) (fun _ _ => false)
          4 4 exSet :=
  ⟨rfl, rfl,
    (c9_upload_preserves_paths_and_cycle exDecode exMaskOf false
      (fun _ _ => false) (fun _ _ => false) 4 4 exSet rfl
      rfl).2.2.2.2.2.2.2.2⟩

theorem wMin_foldl {β : Type} (f : β → WithTop ℚ) :
    ∀ (l : List β) (acc : WithTop ℚ),
      l.foldl (fun a s => min a (f s)) acc = min acc (wMin f l) := by
  intro l
  induction l with
  | nil =>
    intro acc
    simp [wMin, min_eq_left le_top]
  | cons c r ih =>
    intro acc
    show r.foldl (fun a s => min a (f s)) (min acc (f c)) = _
    rw [ih (min acc (f c))]
    have : wMin f (c :: r) = min (f c) (wMin f r) := by
      show r.foldl (fun a s => min a (f s)) (min ⊤ (f c)) = _
      rw [ih (min ⊤ (f c)), min_comm ⊤ (f c), min_eq_left le_top]
    rw [this, min_assoc]

theorem wMin_cons {β : Type} (f : β → WithTop ℚ) (c : β) (r : List β) :
    wMin f (c :: r) = min (f c) (wMin f r) := by
  show r.foldl (fun a s => min a (f s)) (min ⊤ (f c)) = _
  rw [wMin_foldl f r (min ⊤ (f c)), min_comm ⊤ (f c), min_eq_left le_top]

theorem wMin_le_of_mem {β : Type} (f : β → WithTop ℚ) {l : List β} {s : β}
    (h : s ∈ l) : wMin f l ≤ f s := by
  induction l with
  | nil => cases h
  | cons c r ih =>
    rw [wMin_cons]
    rcases List.mem_cons.mp h with rfl | hr
    · exact min_le_left _ _
    · exact le_trans (min_le_right _ _) (ih hr)

theorem wMin_mono {β : Type} {f g : β → WithTop ℚ} :
    ∀ {l : List β}, (∀ s ∈ l, f s ≤ g s) → wMin f l ≤ wMin g l := by
  intro l
  induction l with
  | nil =>
    intro _
    simp [wMin]
  | cons c r ih =>
    intro h
    rw [wMin_cons, wMin_cons]
    exact min_le_min (h c (by simp)) (ih fun s hs => h s (by simp [hs]))

theorem wMin_exists_eq {β : Type} (f : β → WithTop ℚ) :
    ∀ {l : List β}, l ≠ [] → ∃ s ∈ l, wMin f l = f s := by
  intro l
  induction l with
  | nil => intro h; exact absurd rfl h
  | cons c r ih =>
    intro _
    rw [wMin_cons]
    cases r with
    | nil =>
      refine ⟨c, by simp, ?_⟩
      show min (f c) (wMin f []) = f c
      have : wMin f ([] : List β) = ⊤ := rfl
      rw [this, min_eq_left le_top]
    | cons x t =>
      obtain ⟨s, hs, hse⟩ := ih (by simp)
      rcases le_total (f c) (wMin f (x :: t)) with hle | hle
      · exact ⟨c, by simp, min_eq_left hle⟩
      · exact ⟨s, List.mem_cons_of_mem c hs, by rw [min_eq_right hle, hse]⟩

theorem toW_minO (a : Option ℚ) (d : ℚ) :
    toW (minO a d) = min (toW a) ((d : WithTop ℚ)) := by
  cases a with
  | none =>
    show ((d : WithTop ℚ)) = min ⊤ (d : WithTop ℚ)
    rw [min_comm, min_eq_left le_top]
  | some q =>
    show ((min q d : ℚ) : WithTop ℚ) = min ((q : WithTop ℚ)) ((d : WithTop ℚ))
    exact WithTop.coe_min q d

theorem toW_inj {a b : Option ℚ} (h : toW a = toW b) : a = b := by
  cases a with
  | none =>
    cases b with
    | none => rfl
    | some q => exact absurd h.symm (WithTop.coe_ne_top)
  | some q =>
    cases b with
    | none => exact absurd h (WithTop.coe_ne_top)
    | some r =>
      have : q = r := WithTop.coe_injective h
      rw [this]

theorem segStep_eq (p prev cur : Pt) (acc : Option ℚ) :
    segStep p (prev, acc) cur =
      (cur, match codeContrib p (prev, cur) with
        | none => acc
        | some d => minO acc d) := by
  by_cases h1 : dot (sub p prev) (sub cur prev) /
      lengthSquared (sub cur prev) < 1
  · simp [segStep, codeContrib, projT, h1]
  · simp [segStep, codeContrib, projT, h1]

theorem foldl_segStep (p : Pt) :
    ∀ (l : List Pt) (prev : Pt) (acc : Option ℚ),
      toW ((l.foldl (segStep p) (prev, acc)).2) =
        (List.zip (prev :: l) l).foldl
          (fun a s => min a (toW (codeContrib p s))) (toW acc) := by
  intro l
  induction l with
  | nil => intro prev acc; rfl
  | cons c r ih =>
    intro prev acc
    rw [List.foldl_cons, segStep_eq]
    have hzip : List.zip (prev :: c :: r) (c :: r) =
        (prev, c) :: List.zip (c :: r) r := rfl
    rw [hzip, List.foldl_cons, ih c]
    have : toW (match codeContrib p (prev, c) with
        | none => acc
        | some d => minO acc d) =
        min (toW acc) (toW (codeContrib p (prev, c))) := by
      cases h : codeContrib p (prev, c) with
      | none =>
        show toW acc = min (toW acc) ⊤
        rw [min_eq_left le_top]
      | some d => exact toW_minO acc d
    rw [this]

theorem innerLoop_eq_wMin (outline : List Pt) (p : Pt) :
    toW (innerLoop outline p) =
      wMin (fun s => toW (codeContrib p s)) (segments outline) := by
  cases outline with
  | nil => rfl
  | cons a l =>
    show toW (((a :: l).foldl (segStep p)
        ((a :: l).getLast?.getD (0, 0), none)).2) = _
    rw [foldl_segStep p (a :: l) ((a :: l).getLast?.getD (0, 0)) none]
    rfl

theorem trueDistSq_eq_wMin (outline : List Pt) (p : Pt) :
    toW (trueDistSq outline p) =
      wMin (fun s => ((segDistSq p s : ℚ) : WithTop ℚ)) (segments outline) := by
  unfold trueDistSq wMin
  generalize segments outline = l
  have : ∀ (l : List (Pt × Pt)) (acc : Option ℚ),
      toW (l.foldl (fun a s => minO a (segDistSq p s)) acc) =
        l.foldl (fun a s => min a ((segDistSq p s : ℚ) : WithTop ℚ))
          (toW acc) := by
    intro l
    induction l with
    | nil => intro acc; rfl
    | cons c r ih =>
      intro acc
      rw [List.foldl_cons, List.foldl_cons, ih, toW_minO]
  exact this l none

theorem lengthSquared_pos (v : Pt) (h : lengthSquared v ≠ 0) :
    0 < lengthSquared v :=
  (lengthSquared_nonneg v).lt_of_ne (Ne.symm h)

theorem expand_smul (p a b : Pt) (u : ℚ) :
    lengthSquared (sub (sub p a) (smul u (sub b a))) =
      lengthSquared (sub p a) - 2 * u * dot (sub p a) (sub b a) +
        u ^ 2 * lengthSquared (sub b a) := by
  simp only [lengthSquared, dot, sub, smul]
  ring

theorem dist_snd_expand (p a b : Pt) :
    lengthSquared (sub p b) =
      lengthSquared (sub p a) - 2 * dot (sub p a) (sub b a) +
        lengthSquared (sub b a) := by
  simp only [lengthSquared, dot, sub]
  ring

theorem onSeg_sub (p : Pt) (s : Pt × Pt) (u : ℚ) :
    sub p (onSeg s u) = sub (sub p s.1) (smul u (sub s.2 s.1)) := by
  simp only [sub, smul, onSeg, Prod.ext_iff]
  constructor <;> ring

theorem projT_mul (p a b : Pt) (hL : lengthSquared (sub b a) ≠ 0) :
    projT p a b * lengthSquared (sub b a) = dot (sub p a) (sub b a) :=
  div_mul_cancel₀ _ hL

theorem codeContrib_eq_of_lt (p a b : Pt) (h : projT p a b < 1) :
    codeContrib p (a, b) = some (segDistSq p (a, b)) := by
  by_cases h0 : projT p a b ≤ 0
  · have h0' : ¬ 0 < projT p a b := not_lt.mpr h0
    simp [codeContrib, segDistSq, h, h0, h0']
  · have h0' : 0 < projT p a b := lt_of_not_ge h0
    have h1 : ¬ 1 ≤ projT p a b := not_le.mpr h
    simp [codeContrib, segDistSq, h, h0, h0', h1]

theorem codeContrib_eq_none (p a b : Pt) (h : ¬ projT p a b < 1) :
    codeContrib p (a, b) = none := by
  simp [codeContrib, h]

theorem segDistSq_of_ge (p a b : Pt) (h : 1 ≤ projT p a b) :
    segDistSq p (a, b) = lengthSquared (sub p b) := by
  have h0 : ¬ projT p a b ≤ 0 := by
    intro hc
    linarith
  simp [segDistSq, h, h0]

theorem segDistSq_le_fst (p a b : Pt)
    (hL : lengthSquared (sub b a) ≠ 0) (h : projT p a b < 1) :
    segDistSq p (a, b) ≤ lengthSquared (sub p a) := by
  by_cases h0 : projT p a b ≤ 0
  · simp [segDistSq, h0]
  · have h1 : ¬ 1 ≤ projT p a b := not_le.mpr h
    simp only [segDistSq, if_neg h0, if_neg h1]
    rw [expand_smul]
    have hd := projT_mul p a b hL
    have hp := lengthSquared_pos _ hL
    nlinarith [hd, hp, mul_nonneg (sq_nonneg (projT p a b)) hp.le]

theorem segDistSq_le_snd (p a b : Pt)
    (hL : lengthSquared (sub b a) ≠ 0) :
    segDistSq p (a, b) ≤ lengthSquared (sub p b) := by
  have hd := projT_mul p a b hL
  have hp := lengthSquared_pos _ hL
  have hexp := dist_snd_expand p a b
  by_cases h0 : projT p a b ≤ 0
  · simp only [segDistSq, if_pos h0]
    nlinarith [hd, hp, h0]
  · by_cases h1 : 1 ≤ projT p a b
    · simp [segDistSq, h0, h1]
    · simp only [segDistSq, if_neg h0, if_neg h1]
      rw [expand_smul, hexp]
      nlinarith [hd, hp, mul_nonneg (sq_nonneg (1 - projT p a b)) hp.le]

theorem snd_le_of_ge (p a b : Pt)
    (hL : lengthSquared (sub b a) ≠ 0) (h : 1 ≤ projT p a b) :
    lengthSquared (sub p b) ≤
      lengthSquared (sub p a) - lengthSquared (sub b a) := by
  have hd := projT_mul p a b hL
  have hp := lengthSquared_pos _ hL
  rw [dist_snd_expand p a b]
  nlinarith [hd, hp, mul_le_mul_of_nonneg_right h hp.le]

theorem zip_tail_next {α : Type} :
    ∀ (l : List α) (c : α), c ∈ l →
      (∃ d, (c, d) ∈ List.zip l l.tail) ∨ l.getLast? = some c := by
  intro l
  induction l with
  | nil =>
    intro c hc
    cases hc
  | cons x r ih =>
    intro c hc
    cases r with
    | nil =>
      right
      have hcx : c = x := by simpa using hc
      simp [hcx]
    | cons y t =>
      rcases List.mem_cons.mp hc with rfl | hr
      · left
        exact ⟨y, List.mem_cons_self _ _⟩
      · rcases ih c hr with ⟨d, hd⟩ | hlast
        · left
          exact ⟨d, List.mem_cons_of_mem _ hd⟩
        · right
          rwa [List.getLast?_cons_cons]

theorem segments_ne_nil (outline : List Pt) (h : outline ≠ []) :
    segments outline ≠ [] := by
  cases outline with
  | nil => exact absurd rfl h
  | cons a l => simp [segments]

theorem segments_next (outline : List Pt) :
    ∀ s ∈ segments outline, ∃ s2 ∈ segments outline, s2.1 = s.2 := by
  rintro ⟨c1, c2⟩ hs
  cases outline with
  | nil => cases hs
  | cons a l =>
    have hmem : c2 ∈ a :: l := (List.of_mem_zip hs).2
    rcases zip_tail_next (a :: l) c2 hmem with ⟨d, hd⟩ | hlast
    · refine ⟨(c2, d), ?_, rfl⟩
      show (c2, d) ∈ List.zip ((a :: l).getLast?.getD (0, 0) :: a :: l) (a :: l)
      have : List.zip ((a :: l).getLast?.getD (0, 0) :: a :: l) (a :: l) =
          ((a :: l).getLast?.getD (0, 0), a) :: List.zip (a :: l) l := rfl
      rw [this]
      exact List.mem_cons_of_mem _ hd
    · refine ⟨((a :: l).getLast?.getD (0, 0), a), ?_, ?_⟩
      · show _ ∈ List.zip ((a :: l).getLast?.getD (0, 0) :: a :: l) (a :: l)
        have : List.zip ((a :: l).getLast?.getD (0, 0) :: a :: l) (a :: l) =
            ((a :: l).getLast?.getD (0, 0), a) :: List.zip (a :: l) l := rfl
        rw [this]
        exact List.mem_cons_self _ _
      · show (a :: l).getLast?.getD (0, 0) = c2
        rw [hlast]
        rfl

theorem innerLoop_eq_trueDistSq (outline : List Pt) (p : Pt)
    (h0 : outline ≠ []) (hcd : consecDistinct outline) :
    innerLoop outline p = trueDistSq outline p := by
  apply toW_inj
  rw [innerLoop_eq_wMin, trueDistSq_eq_wMin]
  have hL : ∀ s ∈ segments outline, lengthSquared (sub s.2 s.1) ≠ 0 :=
    fun s hs hz => hcd s hs (lengthSquared_sub_eq_zero.mp hz)
  have hge : wMin (fun s => ((segDistSq p s : ℚ) : WithTop ℚ))
      (segments outline) ≤
      wMin (fun s => toW (codeContrib p s)) (segments outline) := by
    apply wMin_mono
    rintro ⟨a, b⟩ _
    by_cases ht : projT p a b < 1
    · rw [codeContrib_eq_of_lt p a b ht]
      exact le_of_eq rfl
    · rw [codeContrib_eq_none p a b ht]
      exact le_top
  have hle : wMin (fun s => toW (codeContrib p s)) (segments outline) ≤
      wMin (fun s => ((segDistSq p s : ℚ) : WithTop ℚ))
        (segments outline) := by
    obtain ⟨s0, hs0, hs0e⟩ :=
      wMin_exists_eq (fun s => ((segDistSq p s : ℚ) : WithTop ℚ))
        (segments_ne_nil outline h0)
    rcases s0 with ⟨a0, b0⟩
    by_cases ht0 : projT p a0 b0 < 1
    · calc wMin (fun s => toW (codeContrib p s)) (segments outline) ≤
          toW (codeContrib p (a0, b0)) := wMin_le_of_mem _ hs0
        _ = ((segDistSq p (a0, b0) : ℚ) : WithTop ℚ) := by
          rw [codeContrib_eq_of_lt p a0 b0 ht0]
          rfl
        _ = _ := hs0e.symm
    · have ht0' : 1 ≤ projT p a0 b0 := not_lt.mp ht0
      obtain ⟨s1, hs1, hs1f⟩ := segments_next outline (a0, b0) hs0
      rcases s1 with ⟨a1, b1⟩
      have hf : a1 = b0 := hs1f
      have hL1 : lengthSquared (sub b1 a1) ≠ 0 := hL (a1, b1) hs1
      have hkey : lengthSquared (sub p a1) = segDistSq p (a0, b0) := by
        rw [hf, segDistSq_of_ge p a0 b0 ht0']
      by_cases ht1 : projT p a1 b1 < 1
      · calc wMin (fun s => toW (codeContrib p s)) (segments outline) ≤
            toW (codeContrib p (a1, b1)) := wMin_le_of_mem _ hs1
          _ = ((segDistSq p (a1, b1) : ℚ) : WithTop ℚ) := by
            rw [codeContrib_eq_of_lt p a1 b1 ht1]
            rfl
          _ ≤ ((lengthSquared (sub p a1) : ℚ) : WithTop ℚ) :=
            WithTop.coe_le_coe.mpr (segDistSq_le_fst p a1 b1 hL1 ht1)
          _ = ((segDistSq p (a0, b0) : ℚ) : WithTop ℚ) := by rw [hkey]
          _ = _ := hs0e.symm
      · exfalso
        have ht1' : 1 ≤ projT p a1 b1 := not_lt.mp ht1
        have hmin_le : wMin (fun s => ((segDistSq p s : ℚ) : WithTop ℚ))
            (segments outline) ≤
            ((segDistSq p (a1, b1) : ℚ) : WithTop ℚ) :=
          wMin_le_of_mem _ hs1
        rw [hs0e] at hmin_le
        have h1 : segDistSq p (a0, b0) ≤ segDistSq p (a1, b1) :=
          WithTop.coe_le_coe.mp hmin_le
        have h2 : segDistSq p (a1, b1) = lengthSquared (sub p b1) :=
          segDistSq_of_ge p a1 b1 ht1'
        have h3 : lengthSquared (sub p b1) ≤
            lengthSquared (sub p a1) - lengthSquared (sub b1 a1) :=
          snd_le_of_ge p a1 b1 hL1 ht1'
        have h4 : 0 < lengthSquared (sub b1 a1) := lengthSquared_pos _ hL1
        rw [hkey] at h3
        rw [h2] at h1
        linarith
  exact le_antisymm hle hge

theorem segDistSq_le_onSeg (p a b : Pt)
    (hL : lengthSquared (sub b a) ≠ 0) (u : ℚ) (hu0 : 0 ≤ u)
    (hu1 : u ≤ 1) :
    segDistSq p (a, b) ≤ lengthSquared (sub p (onSeg (a, b) u)) := by
  have hd := projT_mul p a b hL
  have hp := lengthSquared_pos _ hL
  rw [onSeg_sub, expand_smul]
  by_cases h0 : projT p a b ≤ 0
  · simp only [segDistSq, if_pos h0]
    rw [← hd]
    nlinarith [mul_nonneg (mul_nonneg hu0 (neg_nonneg.mpr h0)) hp.le,
      mul_nonneg (mul_nonneg hu0 hu0) hp.le]
  · by_cases h1 : 1 ≤ projT p a b
    · rw [segDistSq_of_ge p a b h1, dist_snd_expand p a b, ← hd]
      have hfac : 0 ≤ lengthSquared (sub b a) *
          ((1 - u) * (2 * projT p a b - 1 - u)) :=
        mul_nonneg hp.le (mul_nonneg (by linarith) (by linarith))
      nlinarith [hfac]
    · simp only [segDistSq, if_neg h0, if_neg h1]
      rw [expand_smul, ← hd]
      nlinarith [mul_nonneg hp.le (sq_nonneg (u - projT p a b))]

theorem segDistSq_attained (p a b : Pt)
    (_hL : lengthSquared (sub b a) ≠ 0) :
    ∃ u : ℚ, 0 ≤ u ∧ u ≤ 1 ∧
      segDistSq p (a, b) = lengthSquared (sub p (onSeg (a, b) u)) := by
  by_cases h0 : projT p a b ≤ 0
  · refine ⟨0, le_refl 0, by norm_num, ?_⟩
    rw [onSeg_sub, expand_smul]
    simp only [segDistSq, if_pos h0]
    ring
  · by_cases h1 : 1 ≤ projT p a b
    · refine ⟨1, by norm_num, le_refl 1, ?_⟩
      rw [onSeg_sub, expand_smul, segDistSq_of_ge p a b h1,
        dist_snd_expand p a b]
      ring
    · refine ⟨projT p a b, le_of_lt (lt_of_not_ge h0),
        le_of_lt (not_le.mp h1), ?_⟩
      rw [onSeg_sub]
      simp only [segDistSq, if_neg h0, if_neg h1]

theorem trueDistSq_le_seg (outline : List Pt) (p : Pt) (q : ℚ)
    (h : trueDistSq outline p = some q) :
    ∀ s ∈ segments outline, q ≤ segDistSq p s := by
  intro s hs
  have hw := wMin_le_of_mem
    (fun s => ((segDistSq p s : ℚ) : WithTop ℚ)) hs
  rw [← trueDistSq_eq_wMin, h] at hw
  exact WithTop.coe_le_coe.mp hw

theorem trueDistSq_attained_seg (outline : List Pt) (p : Pt) (q : ℚ)
    (h0 : outline ≠ []) (h : trueDistSq outline p = some q) :
    ∃ s ∈ segments outline, segDistSq p s = q := by
  obtain ⟨s, hs, hse⟩ :=
    wMin_exists_eq (fun s => ((segDistSq p s : ℚ) : WithTop ℚ))
      (segments_ne_nil outline h0)
  rw [← trueDistSq_eq_wMin, h] at hse
  exact ⟨s, hs, (WithTop.coe_injective hse).symm⟩

theorem trueDistSq_isSome (outline : List Pt) (p : Pt)
    (h0 : outline ≠ []) : ∃ q, trueDistSq outline p = some q := by
  obtain ⟨s, _, hse⟩ :=
    wMin_exists_eq (fun s => ((segDistSq p s : ℚ) : WithTop ℚ))
      (segments_ne_nil outline h0)
  cases htd : trueDistSq outline p with
  | none =>
    exfalso
    have := trueDistSq_eq_wMin outline p
    rw [htd, hse] at this
    exact WithTop.coe_ne_top this.symm
  | some q => exact ⟨q, rfl⟩

theorem frameValues_getElem {V : Type} (vinf : V)
    (vout : Bool → Option ℚ → V) (inside : List Pt → Pt → Bool)
    (w h : Nat) (outline : List Pt) (hne : outline ≠ [])
    (x y : Nat) (hx : x < w) (hy : y < h) :
    (frameValues vinf vout inside w h outline)[y * w + x]? =
      some (vout (inside outline (pixelOf w h x y))
        (innerLoop outline (pixelOf w h x y))) := by
  unfold frameValues
  rw [if_neg hne]
  have hflat := flatMap_getElem?_uniform
    (fun y => (List.range w).map fun x =>
      vout (inside outline (pixelOf w h x y))
        (innerLoop outline (pixelOf w h x y)))
    w (List.range h) y x y (fun a _ => by simp)
    (List.getElem?_range hy) hx
  rw [hflat, List.getElem?_map, List.getElem?_range hx]
  rfl

/-- C1: for every frame with a non-empty outline in which no two
consecutive points (wrapping last to first) coincide, and every
half-resolution pixel `(x, y)` with `x < W/2`, `y < H/2`, the inner
segment loop of `GenerateDistances` — which considers a segment only when
the projection parameter is `< 1` and clamps it to `≥ 0` — computes
exactly the true minimum squared Euclidean distance from
`p = (x - W/4, y - H/4)` to the closed polyline through the outline's
points: it is a lower bound on the squared distance to every point of
every (wrapping) segment, and is attained on one of them; and the value
stored in the frame's slot equals
`copysign(sqrt(minSquaredDistance), sign) * 2 / length((W, H))`, where
the sign is `-1` iff the point-in-polygon test reports `p` inside. -/
theorem c1_generate_distances_true_min (W H : Nat) (outline : List Pt)
    (inside : List Pt → Pt → Bool) (x y : Nat) (h0 : outline ≠ [])
    (hcd : consecDistinct outline) (hx : x < W / 2) (hy : y < H / 2) :
    innerLoop outline (pixelOf (W / 2) (H / 2) x y) =
        trueDistSq outline (pixelOf (W / 2) (H / 2) x y) ∧
      (∃ q, trueDistSq outline (pixelOf (W / 2) (H / 2) x y) = some q) ∧
      ∀ q, trueDistSq outline (pixelOf (W / 2) (H / 2) x y) = some q →
        (∀ s ∈ segments outline, ∀ u : ℚ, 0 ≤ u → u ≤ 1 →
          q ≤ lengthSquared
            (sub (pixelOf (W / 2) (H / 2) x y) (onSeg s u))) ∧
        (∃ s ∈ segments outline, ∃ u : ℚ, 0 ≤ u ∧ u ≤ 1 ∧
          q = lengthSquared
            (sub (pixelOf (W / 2) (H / 2) x y) (onSeg s u))) ∧
        (frameValues (⊤ : EReal)
            (fun sgn c => Option.elim c (cond sgn ⊥ ⊤) fun r =>
              (((cond sgn (-1) 1) * Real.sqrt ((r : ℚ) : ℝ) *
                (2 / Real.sqrt ((W : ℝ) ^ 2 + (H : ℝ) ^ 2)) : ℝ) : EReal))
            inside (W / 2) (H / 2) outline)[y * (W / 2) + x]? =
          some ((((cond (inside outline (pixelOf (W / 2) (H / 2) x y))
              (-1) 1) * Real.sqrt ((q : ℚ) : ℝ) *
            (2 / Real.sqrt ((W : ℝ) ^ 2 + (H : ℝ) ^ 2)) : ℝ) : EReal)) := by
  have hL : ∀ s ∈ segments outline, lengthSquared (sub s.2 s.1) ≠ 0 :=
    fun s hs hz => hcd s hs (lengthSquared_sub_eq_zero.mp hz)
  have hmain := innerLoop_eq_trueDistSq outline
    (pixelOf (W / 2) (H / 2) x y) h0 hcd
  refine ⟨hmain, trueDistSq_isSome outline _ h0, ?_⟩
  intro q hq
  refine ⟨?_, ?_, ?_⟩
  · rintro ⟨a, b⟩ hs u hu0 hu1
    exact le_trans
      (trueDistSq_le_seg outline _ q hq (a, b) hs)
      (segDistSq_le_onSeg _ a b (hL (a, b) hs) u hu0 hu1)
  · obtain ⟨s, hs, hseq⟩ := trueDistSq_attained_seg outline _ q h0 hq
    rcases s with ⟨a, b⟩
    obtain ⟨u, hu0, hu1, hval⟩ :=
      segDistSq_attained (pixelOf (W / 2) (H / 2) x y) a b (hL (a, b) hs)
    refine ⟨(a, b), hs, u, hu0, hu1, ?_⟩
    rw [← hseq]
    exact hval
  · rw [frameValues_getElem _ _ inside (W / 2) (H / 2) outline h0 x y hx hy,
      hmain, hq]
    rfl

theorem c1_generate_distances_true_min_witness :
    exOutline ≠ [] ∧ consecDistinct exOutline ∧ 1 < 8 / 2 ∧ 2 < 8 / 2 ∧
      innerLoop exOutline (pixelOf (8 / 2) (8 / 2) 1 2) =
        trueDistSq exOutline (pixelOf (8 / 2) (8 / 2) 1 2) :=
  ⟨by decide, by decide, by decide, by decide,
    (c1_generate_distances_true_min 8 8 exOutline (fun _ _ => false) 1 2
      (by decide) (by decide) (by decide) (by decide)).1⟩

theorem getC_lt (path : List Char) (i : Nat) (h : i < path.length) :
    getC path i = some path[i] := by
  simp [getC, h]

theorem isDigitC_iff (c : Char) :
    isDigitC c = true ↔ 48 ≤ c.toNat ∧ c.toNat ≤ 57 := by
  unfold isDigitC
  rw [Bool.and_eq_true, decide_eq_true_iff, decide_eq_true_iff,
    Char.le_def, Char.le_def, UInt32.le_def, UInt32.le_def,
    BitVec.le_def, BitVec.le_def]
  exact Iff.rfl

theorem char_eq_of_toNat (c : Char) (n : Nat) (h : c.toNat = n) :
    c = Char.ofNat n := by
  rw [← h, Char.ofNat_toNat]

theorem is2x_length (path : List Char) (h : is2x path = true) :
    7 ≤ path.length := by
  unfold is2x at h
  by_cases h7 : path.length < 7
  · rw [if_pos h7] at h
    cases h
  · omega

theorem isImage_length (path : List Char) (h : isImage path = true) :
    4 ≤ path.length := by
  unfold isImage at h
  by_cases h4 : path.length < 4
  · rw [if_pos h4] at h
    cases h
  · omega

theorem isImage_dot (path : List Char) (h : isImage path = true)
    (hl : path.length - 4 < path.length) :
    path[path.length - 4] = '.' := by
  have h4 := isImage_length path h
  unfold isImage at h
  rw [if_neg (by omega)] at h
  have hdrop : (path.drop (path.length - 4))[0]? = some '.' := by
    rcases Bool.or_eq_true _ _ |>.mp h with h1 | h1
    · rcases Bool.or_eq_true _ _ |>.mp h1 with h2 | h2
      · rcases Bool.or_eq_true _ _ |>.mp h2 with h3 | h3
        · rw [eq_of_beq h3]
          rfl
        · rw [eq_of_beq h3]
          rfl
      · rw [eq_of_beq h2]
        rfl
    · rw [eq_of_beq h1]
      rfl
  rw [List.getElem?_drop, Nat.add_zero, List.getElem?_eq_getElem hl] at hdrop
  exact Option.some_injective _ hdrop

theorem is2x_chars (path : List Char) (h : is2x path = true)
    (h7 : 7 ≤ path.length) :
    path[path.length - 7]?.getD (Char.ofNat 0) = '@' ∧
      path[path.length - 6]?.getD (Char.ofNat 0) = '2' ∧
      path[path.length - 5]?.getD (Char.ofNat 0) = 'x' := by
  unfold is2x at h
  rw [if_neg (by omega)] at h
  rcases Bool.and_eq_true _ _ |>.mp h with ⟨h12, h3⟩
  rcases Bool.and_eq_true _ _ |>.mp h12 with ⟨h1, h2⟩
  have e1 := eq_of_beq h1
  have e2 := eq_of_beq h2
  have e3 := eq_of_beq h3
  rw [getC_lt path _ (by omega)] at e1 e2 e3
  refine ⟨?_, ?_, ?_⟩
  · rw [List.getElem?_eq_getElem (by omega : path.length - 7 < path.length)]
    simpa using e1
  · rw [List.getElem?_eq_getElem (by omega : path.length - 6 < path.length)]
    simpa using e2
  · rw [List.getElem?_eq_getElem (by omega : path.length - 5 < path.length)]
    simpa using e3

theorem nameEnd_mod (path : List Char) (h4 : 4 ≤ path.length)
    (hu : path.length < usize) :
    (path.length + (usize - (if is2x path then 7 else 4))) % usize =
      nameCut path := by
  have hk : (if is2x path then 7 else 4) ≤ path.length := by
    by_cases h2 : is2x path
    · rw [if_pos h2]
      exact is2x_length path h2
    · rw [if_neg h2]
      exact h4
  have hk8 : (if is2x path then 7 else 4) ≤ 8 := by
    split <;> omega
  unfold nameCut usize at *
  omega

theorem nameEnd_unfold (path : List Char) (h4 : 4 ≤ path.length)
    (hu : path.length < usize) :
    nameEnd path =
      (if nameCut path = 0 then some 0
       else
         match scanLoop path (nameCut path) with
         | none => none
         | some pos =>
           match getC path pos with
           | none => none
           | some c => some (if isBlend c then pos else nameCut path)) := by
  unfold nameEnd
  rw [nameEnd_mod path h4 hu]

theorem scanLoop_spec (path : List Char) :
    ∀ e, 0 < e → e ≤ path.length →
      ∃ pos, scanLoop path e = some pos ∧ pos < e ∧
        (∀ j, pos < j → j < e →
          isDigitC (path[j]?.getD (Char.ofNat 0)) = true) ∧
        (pos = 0 ∨ isDigitC (path[pos]?.getD (Char.ofNat 0)) = false) := by
  intro e
  induction e using Nat.strong_induction_on with
  | _ e ih =>
    intro he0 helen
    match e, he0, helen, ih with
    | 1, _, _, _ =>
      exact ⟨0, rfl, by omega, fun j h1 h2 => by omega, Or.inl rfl⟩
    | (p + 2), _, helen, ih =>
      have hp1 : p + 1 < path.length := by omega
      have hgc : getC path (p + 1) = some path[p + 1] :=
        getC_lt path (p + 1) hp1
      have hgd : path[p + 1]?.getD (Char.ofNat 0) = path[p + 1] := by
        rw [List.getElem?_eq_getElem hp1]
        rfl
      by_cases hdig : isDigitC path[p + 1] = true
      · obtain ⟨pos, hscan, hlt, hdigits, hstop⟩ :=
          ih (p + 1) (by omega) (by omega) (by omega)
        refine ⟨pos, ?_, by omega, ?_, hstop⟩
        · show scanLoop path (p + 2) = some pos
          rw [scanLoop, hgc]
          simp only [hdig, if_true]
          exact hscan
        · intro j h1 h2
          by_cases hj : j < p + 1
          · exact hdigits j h1 hj
          · have hje : j = p + 1 := by omega
            rw [hje, hgd]
            exact hdig
      · refine ⟨p + 1, ?_, by omega, fun j h1 h2 => by omega, Or.inr ?_⟩
        · show scanLoop path (p + 2) = some (p + 1)
          rw [scanLoop, hgc]
          simp only [hdig, if_false]
          simp [hdig]
        · rw [hgd]
          simpa using hdig

theorem parseLoop_eq (path : List Char) :
    ∀ fuel i acc, path.length + 1 ≤ fuel + i → i ≤ path.length →
      parseLoop path fuel i acc =
        some (((path.drop i).takeWhile fun c => isDigitC c).foldl
          (fun a c => a * 10 + (c.toNat - 48)) acc) := by
  intro fuel
  induction fuel with
  | zero =>
    intro i acc hf hi
    omega
  | succ fuel ih =>
    intro i acc hf hi
    rcases Nat.lt_or_ge i path.length with hlt | hge
    · rw [parseLoop, getC_lt path i hlt]
      have hdrop : path.drop i = path[i] :: path.drop (i + 1) :=
        List.drop_eq_getElem_cons hlt
      by_cases hdig : isDigitC path[i] = true
      · simp only [hdig, if_true]
        rw [ih (i + 1) (acc * 10 + (path[i].toNat - 48)) (by omega)
          (by omega), hdrop, List.takeWhile_cons]
        simp [hdig]
      · simp only [hdig, if_false]
        rw [hdrop, List.takeWhile_cons]
        simp only [Bool.not_eq_true] at hdig
        rw [hdig]
        rfl
    · have hieq : i = path.length := by omega
      rw [parseLoop]
      have hgc : getC path i = some (Char.ofNat 0) := by
        unfold getC
        rw [dif_neg (by omega), if_pos hieq]
      rw [hgc]
      have hnd : isDigitC (Char.ofNat 0) = false := by decide
      simp only [hnd, if_false]
      rw [hieq, List.drop_length]
      rfl

theorem takeWhile_exact {α : Type} (p : α → Bool) :
    ∀ (l1 l2 : List α), (∀ c ∈ l1, p c = true) →
      (∀ c, l2.head? = some c → p c = false) →
      (l1 ++ l2).takeWhile p = l1 ∧ (l1 ++ l2).dropWhile p = l2 := by
  intro l1
  induction l1 with
  | nil =>
    intro l2 _ h2
    cases l2 with
    | nil => exact ⟨rfl, rfl⟩
    | cons c t =>
      have := h2 c rfl
      constructor
      · simp [List.takeWhile_cons, this]
      · simp [List.dropWhile_cons, this]
  | cons a l1 ih =>
    intro l2 h1 h2
    have hpa : p a = true := h1 a (by simp)
    obtain ⟨ht, hd⟩ := ih l2 (fun c hc => h1 c (by simp [hc])) h2
    constructor
    · simp [List.takeWhile_cons, hpa, ht]
    · simp [List.dropWhile_cons, hpa, hd]

theorem valOf_eq_ofDigits (r : List Char) :
    valOf r = Nat.ofDigits 10 ((r.map fun c => c.toNat - 48).reverse) := by
  induction r using List.reverseRecOn with
  | nil => rfl
  | append_singleton r c ih =>
    have h1 : valOf (r ++ [c]) = valOf r * 10 + (c.toNat - 48) := by
      unfold valOf digitVal
      rw [List.foldl_append]
      rfl
    rw [h1, ih, List.map_append, List.reverse_append]
    simp only [List.map_cons, List.map_nil, List.reverse_cons,
      List.reverse_nil, List.nil_append, List.singleton_append,
      Nat.ofDigits_cons]
    ring

theorem decimalDigits_valOf (r : List Char) (hne : r ≠ [])
    (hdig : ∀ c ∈ r, isDigitC c = true)
    (hcanon : r.head? = some '0' → r = ['0']) :
    decimalDigits (valOf r) = r := by
  by_cases hz : r = ['0']
  · rw [hz]
    decide
  · have hall : ∀ l ∈ (r.map fun c => c.toNat - 48).reverse, l < 10 := by
      intro l hl
      rw [List.mem_reverse] at hl
      obtain ⟨c, hc, rfl⟩ := List.mem_map.mp hl
      have hb := (isDigitC_iff c).mp (hdig c hc)
      omega
    have hlast : ∀ (h : (r.map fun c => c.toNat - 48).reverse ≠ []),
        ((r.map fun c => c.toNat - 48).reverse).getLast h ≠ 0 := by
      intro h
      cases r with
      | nil => exact absurd rfl hne
      | cons c0 t =>
        have hh : (((c0 :: t).map fun c => c.toNat - 48).reverse).getLast? =
            some (c0.toNat - 48) := by
          rw [List.getLast?_reverse]
          rfl
        rw [List.getLast?_eq_getLast _ h] at hh
        have hval : (((c0 :: t).map fun c => c.toNat - 48).reverse).getLast h =
            c0.toNat - 48 := Option.some_injective _ hh
        rw [hval]
        intro h0
        have hb := (isDigitC_iff c0).mp (hdig c0 (by simp))
        have hc0 : c0.toNat = 48 := by omega
        have hc0' : c0 = '0' := char_eq_of_toNat c0 48 hc0
        subst hc0'
        exact hz (hcanon rfl)
    have hLne : (r.map fun c => c.toNat - 48).reverse ≠ [] := by
      simp only [ne_eq, List.reverse_eq_nil_iff, List.map_eq_nil_iff]
      exact hne
    have hdigL : Nat.digits 10 (valOf r) =
        (r.map fun c => c.toNat - 48).reverse := by
      rw [valOf_eq_ofDigits r]
      exact Nat.digits_ofDigits 10 (by norm_num) _ hall hlast
    have hvne : valOf r ≠ 0 := by
      intro h0
      rw [h0] at hdigL
      simp only [Nat.digits_zero] at hdigL
      exact hLne hdigL.symm
    unfold decimalDigits
    rw [if_neg hvne, hdigL, List.reverse_reverse, List.map_map]
    have hcong : ∀ c ∈ r,
        ((fun d => Char.ofNat (48 + d)) ∘ fun c => c.toNat - 48) c = id c := by
      intro c hc
      have hb := (isDigitC_iff c).mp (hdig c hc)
      have h48 : 48 + (c.toNat - 48) = c.toNat := by omega
      simp only [Function.comp_apply, h48, Char.ofNat_toNat, id_eq]
    rw [List.map_congr_left hcong, List.map_id]

theorem twoX_tail (path : List Char) (himg : isImage path = true) :
    (if is2x path then "@2x".toList else []) ++
        path.drop (path.length - 4) = path.drop (nameCut path) := by
  have h4 := isImage_length path himg
  cases h2 : is2x path with
  | false => simp [nameCut, h2]
  | true =>
    have h7 := is2x_length path h2
    obtain ⟨e1, e2, e3⟩ := is2x_chars path h2 h7
    have hl7 : path.length - 7 < path.length := by omega
    have hl6 : path.length - 6 < path.length := by omega
    have hl5 : path.length - 5 < path.length := by omega
    rw [List.getElem?_eq_getElem hl7, Option.getD_some] at e1
    rw [List.getElem?_eq_getElem hl6, Option.getD_some] at e2
    rw [List.getElem?_eq_getElem hl5, Option.getD_some] at e3
    simp only [nameCut, h2, if_true]
    have e67 : path.length - 7 + 1 = path.length - 6 := by omega
    have e56 : path.length - 6 + 1 = path.length - 5 := by omega
    have e45 : path.length - 5 + 1 = path.length - 4 := by omega
    rw [List.drop_eq_getElem_cons hl7, e67, List.drop_eq_getElem_cons hl6,
      e56, List.drop_eq_getElem_cons hl5, e45, e1, e2, e3]
    rfl

theorem cut_char (path : List Char) (himg : isImage path = true) :
    isBlend (path[nameCut path]?.getD (Char.ofNat 0)) = false ∧
      isDigitC (path[nameCut path]?.getD (Char.ofNat 0)) = false := by
  have h4 := isImage_length path himg
  cases h2 : is2x path with
  | false =>
    have hl : path.length - 4 < path.length := by omega
    have hdot := isImage_dot path himg hl
    simp only [nameCut, h2, Bool.false_eq_true, if_false]
    rw [List.getElem?_eq_getElem hl, Option.getD_some, hdot]
    constructor <;> decide
  | true =>
    have h7 := is2x_length path h2
    obtain ⟨e1, _, _⟩ := is2x_chars path h2 h7
    simp only [nameCut, h2, if_true]
    rw [e1]
    constructor <;> decide

/-- C2 counterexample: `"a-.png"` is accepted by `IsImage` and its parse
reports a frame suffix (the `-` marker with an empty digit run, frame
index 0), but re-concatenating name, marker, the decimal digits of the
frame index and the extension yields `"a-0.png" ≠ "a-.png"`. -/
theorem c2_roundtrip_counterexample :
    reconstruct ("a-.png".toList) ≠ some ("a-.png".toList) := by
  decide

/-- C2 (amended): for every path accepted by `IsImage` (of C++-represent-
able length) whose parsed frame-suffix digit run, when one is parsed, is
nonempty and in canonical decimal form (no leading zero except `"0"`
itself), concatenating `Name(p)`, then — when a frame suffix was parsed —
the blend marker followed by the decimal digits of `FrameIndex(p)`, then
`"@2x"` when `Is2x(p)`, then the 4-character extension, reconstructs `p`
exactly. -/
theorem c2_roundtrip_amended (path : List Char) (himg : isImage path = true)
    (hu : path.length < usize)
    (hcanon : hasFrameSuffix path = true → canonicalRun (frameRun path)) :
    reconstruct path = some path := by
  have h4 : 4 ≤ path.length := isImage_length path himg
  have hcut_lt : nameCut path < path.length := by
    unfold nameCut
    split <;> omega
  have hcut_le : nameCut path ≤ path.length - 4 := by
    unfold nameCut
    split <;> omega
  have htail := twoX_tail path himg
  obtain ⟨hnb_cut, hnd_cut⟩ := cut_char path himg
  have hnu := nameEnd_unfold path h4 hu
  by_cases hc0 : nameCut path = 0
  · -- the defensive `if(!end)` branch: name is empty, no frame suffix
    have hne : nameEnd path = some 0 := by
      rw [hnu, if_pos hc0]
    have h0lt : 0 < path.length := by omega
    have hgc : getC path 0 = some path[0] := getC_lt path 0 h0lt
    have hnb : isBlend path[0] = false := by
      rw [hc0, List.getElem?_eq_getElem h0lt, Option.getD_some] at hnb_cut
      exact hnb_cut
    unfold reconstruct
    rw [hne, Option.some_bind, hgc, Option.some_bind, hnb]
    simp only [Bool.false_eq_true, if_false, Option.map_some',
      List.take_zero, List.nil_append]
    rw [htail, hc0, List.drop_zero]
  · obtain ⟨pos, hscan, hposlt, hdigits, _⟩ :=
      scanLoop_spec path (nameCut path) (by omega) (by omega)
    have hposlen : pos < path.length := by omega
    have hgcp : getC path pos = some path[pos] := getC_lt path pos hposlen
    by_cases hbl : isBlend path[pos] = true
    · -- a frame suffix was parsed
      have hne : nameEnd path = some pos := by
        rw [hnu, if_neg hc0, hscan]
        simp [hgcp, hbl]
      -- the digit run between the marker and the cut
      have hsplit : path.drop (pos + 1) =
          (path.drop (pos + 1)).take (nameCut path - (pos + 1)) ++
            path.drop (nameCut path) := by
        have hdd : path.drop (nameCut path) =
            (path.drop (pos + 1)).drop (nameCut path - (pos + 1)) := by
          rw [List.drop_drop]
          congr 1
          omega
        rw [hdd, List.take_append_drop]
      have hslice_dig : ∀ c ∈ (path.drop (pos + 1)).take
          (nameCut path - (pos + 1)), isDigitC c = true := by
        intro c hcm
        obtain ⟨j, hjlt, hjeq⟩ := List.mem_iff_getElem.mp hcm
        have hjlt2 : j < nameCut path - (pos + 1) := by
          have := hjlt
          rw [List.length_take] at this
          omega
        have hjlen : pos + 1 + j < path.length := by omega
        rw [List.getElem_take, List.getElem_drop] at hjeq
        have := hdigits (pos + 1 + j) (by omega) (by omega)
        rw [List.getElem?_eq_getElem hjlen, Option.getD_some] at this
        rwa [hjeq] at this
      have hhead_nd : ∀ c, (path.drop (nameCut path)).head? = some c →
          isDigitC c = false := by
        intro c hc
        rw [List.head?_drop, List.getElem?_eq_getElem hcut_lt] at hc
        have hceq : path[nameCut path] = c := Option.some_injective _ hc
        rw [List.getElem?_eq_getElem hcut_lt, Option.getD_some, hceq]
          at hnd_cut
        exact hnd_cut
      obtain ⟨htake, hdropw⟩ := takeWhile_exact (fun c => isDigitC c) _ _
        hslice_dig hhead_nd
      rw [← hsplit] at htake hdropw
      -- the frame index is the value of the run
      have hfi : frameIndex path =
          some (valOf ((path.drop (pos + 1)).takeWhile
            fun c => isDigitC c)) := by
        unfold frameIndex
        rw [hne]
        simp only [hgcp, hbl, if_true]
        exact parseLoop_eq path (path.length + 1) (pos + 1) 0 (by omega)
          (by omega)
      -- the run is canonical, so its decimal rendering is itself
      have hsuf : hasFrameSuffix path = true := by
        unfold hasFrameSuffix
        rw [hne]
        simp only [hgcp]
        exact hbl
      have hcr0 := hcanon hsuf
      unfold frameRun at hcr0
      rw [hne] at hcr0
      have hcr : canonicalRun
          ((path.drop (pos + 1)).takeWhile fun c => isDigitC c) := hcr0
      have hrdig : ∀ c ∈ (path.drop (pos + 1)).takeWhile
          (fun c => isDigitC c), isDigitC c = true :=
        fun c hc => List.mem_takeWhile_imp hc
      have hrt := decimalDigits_valOf _ hcr.1 hrdig hcr.2
      -- assemble
      unfold reconstruct
      rw [hne, Option.some_bind, hgcp, Option.some_bind, hbl, if_pos rfl,
        hfi]
      simp only [Option.map_some']
      rw [hrt]
      congr 1
      simp only [List.append_assoc, List.cons_append]
      rw [htail, ← hdropw, List.takeWhile_append_dropWhile,
        ← List.drop_eq_getElem_cons hposlen, List.take_append_drop]
    · -- no frame suffix: the boundary is the cut position
      have hne : nameEnd path = some (nameCut path) := by
        rw [hnu, if_neg hc0, hscan]
        simp [hgcp, hbl]
      have hgcc : getC path (nameCut path) = some path[nameCut path] :=
        getC_lt path (nameCut path) hcut_lt
      have hnb : isBlend path[nameCut path] = false := by
        rw [List.getElem?_eq_getElem hcut_lt, Option.getD_some] at hnb_cut
        exact hnb_cut
      unfold reconstruct
      rw [hne, Option.some_bind, hgcc, Option.some_bind, hnb]
      simp only [Bool.false_eq_true, if_false, Option.map_some',
        List.append_nil, List.append_assoc]
      rw [htail]
      simp only [List.nil_append]
      rw [List.take_append_drop]

theorem c2_roundtrip_amended_witness :
    isImage ("ship/fighter-3@2x.png".toList) = true ∧
      ("ship/fighter-3@2x.png".toList).length < usize ∧
      (hasFrameSuffix ("ship/fighter-3@2x.png".toList) = true →
        canonicalRun (frameRun ("ship/fighter-3@2x.png".toList))) ∧
      reconstruct ("ship/fighter-3@2x.png".toList) =
        some ("ship/fighter-3@2x.png".toList) :=
  ⟨by decide, by decide, by decide,
    c2_roundtrip_amended ("ship/fighter-3@2x.png".toList) (by decide)
      (by decide) (by decide)⟩

end ImageSetProof
